import Mathlib

set_option linter.unusedSectionVars false
set_option linter.unusedVariables false

/-!
Verification of the `IntervalMap` Rust library (`src/lib.rs`).

The map stores breakpoints in a `BTreeMap<K, &V>` (`m_map`), here embedded as a
list of `(key, value)` pairs kept strictly sorted by key (`Table`).  Keys are
embedded as `Int`; the generic sentinel `K::minimum()` becomes an explicit
parameter `kmin` together with hypotheses `kmin ≤ k` for every key `k` in play
(for the concrete `i32` instance, `kmin = -2147483648` and every `i32` key is
at least `kmin`).  Fallible steps of the code (the `unwrap`s and slice
indexing in `get`/`find_index`) are embedded with `Option`: a `none` result
marks a panic of the Rust code.
-/

namespace IntervalMap

/-- The `BTreeMap<K, &V>` field `m_map`: entries sorted by key. -/
abbrev Table (V : Type) : Type := List (Int × V)

variable {V : Type} [DecidableEq V]

/-- `BTreeMap::insert`: insert, or replace the value at an existing key. -/
def btreeInsert : Table V → Int → V → Table V
  | [], k, v => [(k, v)]
  | (k1, v1) :: rest, k, v =>
    if k < k1 then (k, v) :: (k1, v1) :: rest
    else if k = k1 then (k, v) :: rest
    else (k1, v1) :: btreeInsert rest k v

/-- `BTreeMap::remove`: drop the entry at key `k`, if present. -/
def btreeRemove : Table V → Int → Table V
  | [], _ => []
  | (k1, v1) :: rest, k => if k = k1 then rest else (k1, v1) :: btreeRemove rest k

/-- `self.m_map.keys()`: the keys, in sorted order. -/
def keysOf (m : Table V) : List Int := m.map Prod.fst

/-- The `while low <= high` loop of `IntervalMap::find_index`, followed by the
post-loop index selection.  The loop is embedded structurally with a fuel
parameter; the top-level call passes `keys.length + 1`, which always
suffices because every iteration shrinks the window `high - low` (the spec
theorem below shows the fuel-exhausted `none` is never returned).  A `none`
from inside the body marks an out-of-bounds slice access (a panic in
Rust). -/
def findIndexGo (keys : List Int) (key : Int) : Nat → Int → Int → Option Int
  | 0, _, _ => none
  | fuel + 1, low, high =>
    if low ≤ high then
      let mid := low + (high - low) / 2
      if mid < 0 then none
      else
        match keys.get? mid.toNat with
        | none => none
        | some km =>
          if km < key then findIndexGo keys key fuel (mid + 1) high
          else if key < km then findIndexGo keys key fuel low (mid - 1)
          else some mid
    else if high < 0 then some 0
    else if (keys.length : Int) - 1 < low then some ((keys.length : Int) - 1)
    else if low < high then some low else some high

/-- `IntervalMap::find_index`. -/
def find_index (keys : List Int) (key : Int) : Option Int :=
  findIndexGo keys key (keys.length + 1) 0 ((keys.length : Int) - 1)

/-- `IntervalMap::get`.  `none` marks a panic (an `unwrap` failing or an
index falling outside the key slice). -/
def get? (m : Table V) (key : Int) : Option V :=
  let sorted_keys := keysOf m
  match find_index sorted_keys key with
  | none => none
  | some idx =>
    if idx < 0 then none
    else
      match sorted_keys.get? idx.toNat with
      | none => none
      | some k => List.lookup k m

/-- `IntervalMap::new`: one breakpoint at the sentinel `K::minimum()`,
embedded as the parameter `kmin`. -/
def new (kmin : Int) (init_val : V) : Table V := [(kmin, init_val)]

/-- The `for elem in self.m_map.keys()` loop of `IntervalMap::insert`,
carrying `before_key`, `before_val`, and `to_delete` through the entries. -/
def insertLoop (begin_key end_key : Int) :
    Table V → Int → V → List Int → Int × V × List Int
  | [], bk, bv, td => (bk, bv, td)
  | (k, w) :: rest, bk, bv, td =>
    if k < begin_key then insertLoop begin_key end_key rest bk bv td
    else if end_key < k then (bk, bv, td)
    else insertLoop begin_key end_key rest k w (if bk = k then td else td ++ [k])

/-- `IntervalMap::insert`.  `none` marks a panic inside the initial
`self.get(&begin_key)` call. -/
def insert? (m : Table V) (begin_key end_key : Int) (val : V) : Option (Table V) :=
  match get? m begin_key with
  | none => none
  | some bval =>
    let same_value := bval = val
    let res := insertLoop begin_key end_key m begin_key bval []
    let m1 := res.2.2.foldl (fun mm k => btreeRemove mm k) m
    let m2 := if same_value then m1 else btreeInsert m1 begin_key val
    let m3 := if res.2.1 = val then m2 else btreeInsert m2 end_key res.2.1
    some m3

/-- A `new` followed by a sequence of `insert` calls. -/
def run (kmin : Int) (v0 : V) (ops : List (Int × Int × V)) : Option (Table V) :=
  ops.foldlM (fun m op => insert? m op.1 op.2.1 op.2.2) (new kmin v0)

/-- The entries are strictly increasing by key (the `BTreeMap` ordering). -/
def SortedT (m : Table V) : Prop :=
  List.Pairwise (fun p q : Int × V => p.1 < q.1) m

/-- Well-formedness of a table: sorted, and its first key is the sentinel. -/
def WF (kmin : Int) (m : Table V) : Prop :=
  SortedT m ∧ (keysOf m).head? = some kmin

/-- An operation sequence whose every call satisfies the documented
precondition `begin ≤ end`, with keys in the domain (at least `kmin`). -/
def ValidOps (kmin : Int) (ops : List (Int × Int × V)) : Prop :=
  ∀ op ∈ ops, kmin ≤ op.1 ∧ op.1 ≤ op.2.1

/-- A table reachable by `new` followed by precondition-respecting inserts. -/
def Reachable (kmin : Int) (v0 : V) (m : Table V) : Prop :=
  ∃ ops, ValidOps kmin ops ∧ run kmin v0 ops = some m

/-- No two adjacent breakpoints hold equal values (spec §3, invariant I3). -/
def Canonical (m : Table V) : Prop :=
  List.Chain' (fun p q : Int × V => p.2 ≠ q.2) m

/-- Modelled from the spec's words (§4.1 `get`): a floor search returns the
entry at the greatest breakpoint key that is `≤` the query key. -/
def floorE (m : Table V) (q : Int) : Option (Int × V) :=
  (m.filter (fun p => decide (p.1 ≤ q))).getLast?

/-- Modelled from the spec's words: the value of the floor breakpoint. -/
def specFloor (m : Table V) (q : Int) : Option V :=
  (floorE m q).map Prod.snd

/-- Modelled from the spec's words (§8, overwrite/override): the value of the
most recent insert whose half-open range contains `q`, or the default. -/
def lastWrite (v0 : V) (ops : List (Int × Int × V)) (q : Int) : V :=
  match (ops.filter (fun op => decide (op.1 ≤ q) && decide (q < op.2.1))).getLast? with
  | some op => op.2.2
  | none => v0

/-! ### Basic facts about sorted tables -/

theorem mem_of_getLast? {α : Type} {l : List α} {a : α} (h : l.getLast? = some a) :
    a ∈ l := by
  induction l with
  | nil => simp [List.getLast?] at h
  | cons x t ih =>
    cases t with
    | nil => simp [List.getLast?] at h; simp [h]
    | cons y t2 =>
      rw [List.getLast?_cons_cons] at h
      exact List.mem_cons_of_mem x (ih h)

theorem sortedT_cons {x : Int × V} {t : Table V} (h : SortedT (x :: t)) :
    (∀ r ∈ t, x.1 < r.1) ∧ SortedT t :=
  List.pairwise_cons.mp h

theorem sortedT_of_sublist {m m2 : Table V} (h : m2.Sublist m) (hs : SortedT m) :
    SortedT m2 :=
  List.Pairwise.sublist h hs

theorem entry_eq_of_key_eq {m : Table V} (hs : SortedT m) {p r : Int × V}
    (hp : p ∈ m) (hr : r ∈ m) (hk : p.1 = r.1) : p = r := by
  induction m with
  | nil => cases hp
  | cons x t ih =>
    obtain ⟨hx, ht⟩ := sortedT_cons hs
    rcases List.mem_cons.mp hp with rfl | hp2
    · rcases List.mem_cons.mp hr with rfl | hr2
      · rfl
      · exact absurd hk (by have := hx r hr2; omega)
    · rcases List.mem_cons.mp hr with rfl | hr2
      · exact absurd hk (by have := hx p hp2; omega)
      · exact ih ht hp2 hr2

theorem key_le_getLast {m : Table V} (hs : SortedT m) {p r : Int × V}
    (hp : p ∈ m) (hl : m.getLast? = some r) : p.1 ≤ r.1 := by
  induction m with
  | nil => cases hp
  | cons x t ih =>
    obtain ⟨hx, ht⟩ := sortedT_cons hs
    cases t with
    | nil =>
      simp [List.getLast?] at hl
      rcases List.mem_cons.mp hp with rfl | h2
      · simp [hl]
      · cases h2
    | cons y t2 =>
      rw [List.getLast?_cons_cons] at hl
      rcases List.mem_cons.mp hp with rfl | h2
      · have hr := mem_of_getLast? hl
        exact le_of_lt (hx r hr)
      · exact ih ht h2 hl

/-- A well-formed table starts with the sentinel entry. -/
theorem wf_shape {kmin : Int} {m : Table V} (hm : WF kmin m) :
    ∃ w t, m = (kmin, w) :: t := by
  obtain ⟨hs, hh⟩ := hm
  cases m with
  | nil => simp [keysOf] at hh
  | cons x t =>
    simp [keysOf] at hh
    exact ⟨x.2, t, by rw [← hh]⟩

theorem wf_key_lb {kmin : Int} {m : Table V} (hm : WF kmin m) :
    ∀ p ∈ m, kmin ≤ p.1 := by
  obtain ⟨w, t, rfl⟩ := wf_shape hm
  intro p hp
  rcases List.mem_cons.mp hp with rfl | hp2
  · exact le_refl _
  · exact le_of_lt ((sortedT_cons hm.1).1 p hp2)

/-! ### The floor entry -/

/-- `p` is the breakpoint covering `q`: the entry of greatest key `≤ q`. -/
def IsFloorE (m : Table V) (q : Int) (p : Int × V) : Prop :=
  p ∈ m ∧ p.1 ≤ q ∧ ∀ r ∈ m, r.1 ≤ q → r.1 ≤ p.1

theorem mem_filter_le {m : Table V} {q : Int} {p : Int × V} :
    p ∈ m.filter (fun p => decide (p.1 ≤ q)) ↔ p ∈ m ∧ p.1 ≤ q := by
  simp [List.mem_filter]

theorem isFloorE_of_floorE {m : Table V} (hs : SortedT m) {q : Int} {p : Int × V}
    (h : floorE m q = some p) : IsFloorE m q p := by
  have hp := mem_of_getLast? h
  obtain ⟨hpm, hpq⟩ := mem_filter_le.mp hp
  refine ⟨hpm, hpq, ?_⟩
  intro r hr hrq
  have hrf : r ∈ m.filter (fun p => decide (p.1 ≤ q)) := mem_filter_le.mpr ⟨hr, hrq⟩
  exact key_le_getLast (sortedT_of_sublist (List.filter_sublist m) hs) hrf h

theorem floorE_of_isFloorE {m : Table V} (hs : SortedT m) {q : Int} {p : Int × V}
    (h : IsFloorE m q p) : floorE m q = some p := by
  obtain ⟨hpm, hpq, hmax⟩ := h
  have hpf : p ∈ m.filter (fun p => decide (p.1 ≤ q)) := mem_filter_le.mpr ⟨hpm, hpq⟩
  have hne : m.filter (fun p => decide (p.1 ≤ q)) ≠ [] := by
    intro hnil; rw [hnil] at hpf; cases hpf
  obtain ⟨r, hr⟩ := Option.isSome_iff_exists.mp (List.getLast?_isSome.mpr hne)
  have hrf := mem_of_getLast? hr
  obtain ⟨hrm, hrq⟩ := mem_filter_le.mp hrf
  have h1 : p.1 ≤ r.1 :=
    key_le_getLast (sortedT_of_sublist (List.filter_sublist m) hs) hpf hr
  have h2 : r.1 ≤ p.1 := hmax r hrm hrq
  have : p = r := entry_eq_of_key_eq hs hpm hrm (by omega)
  rw [floorE, hr, this]

theorem floorE_iff {m : Table V} (hs : SortedT m) {q : Int} {p : Int × V} :
    floorE m q = some p ↔ IsFloorE m q p :=
  ⟨isFloorE_of_floorE hs, floorE_of_isFloorE hs⟩

theorem floorE_exists {m : Table V} (hs : SortedT m) {q : Int} {p0 : Int × V}
    (hp0 : p0 ∈ m) (h : p0.1 ≤ q) : ∃ p, floorE m q = some p := by
  have hpf : p0 ∈ m.filter (fun p => decide (p.1 ≤ q)) := mem_filter_le.mpr ⟨hp0, h⟩
  have hne : m.filter (fun p => decide (p.1 ≤ q)) ≠ [] := by
    intro hnil; rw [hnil] at hpf; cases hpf
  exact Option.isSome_iff_exists.mp (List.getLast?_isSome.mpr hne)

/-- For a well-formed table, every domain key has a floor entry. -/
theorem floorE_exists_wf {kmin : Int} {m : Table V} (hm : WF kmin m) {q : Int}
    (hq : kmin ≤ q) : ∃ p, floorE m q = some p ∧ IsFloorE m q p := by
  obtain ⟨w, t, hmeq⟩ := wf_shape hm
  have hp0 : ((kmin, w) : Int × V) ∈ m := by rw [hmeq]; exact List.mem_cons_self _ _
  obtain ⟨p, hp⟩ := floorE_exists hm.1 hp0 hq
  exact ⟨p, hp, isFloorE_of_floorE hm.1 hp⟩

/-! ### Correctness of the binary search in `find_index` -/

theorem findIndexGo_spec {keys : List Int} {q : Int}
    (hs : List.Pairwise (fun a b : Int => a < b) keys)
    (hne : keys ≠ [])
    (h0 : ∀ h : 0 < keys.length, keys.get ⟨0, h⟩ ≤ q) :
    ∀ (fuel : Nat) (low high : Int), (high - low + 1).toNat < fuel →
      0 ≤ low → high < (keys.length : Int) → low ≤ high + 1 →
      (∀ j : Fin keys.length, ((j : Nat) : Int) < low → keys.get j ≤ q) →
      (∀ j : Fin keys.length, high < ((j : Nat) : Int) → q < keys.get j) →
      ∃ i : Fin keys.length, findIndexGo keys q fuel low high = some ((i : Nat) : Int) ∧
        keys.get i ≤ q ∧ ∀ j : Fin keys.length, (i : Nat) < (j : Nat) → q < keys.get j := by
  have hmono := List.pairwise_iff_get.mp hs
  have hlen : 0 < keys.length := List.length_pos.mpr hne
  intro fuel
  induction fuel with
  | zero =>
    intro low high hfuel
    exact absurd hfuel (Nat.not_lt_zero _)
  | succ fuel ih =>
    intro low high hfuel h1 h2 h3 hlow hhigh
    by_cases hlh : low ≤ high
    · -- one more loop iteration
      have hmidneg : ¬ (low + (high - low) / 2 < 0) := by omega
      have hmlt : (low + (high - low) / 2).toNat < keys.length := by omega
      have hmlow : low ≤ low + (high - low) / 2 := by omega
      have hmhigh : low + (high - low) / 2 ≤ high := by omega
      have hk := List.get?_eq_get hmlt
      by_cases hklt : keys.get ⟨(low + (high - low) / 2).toNat, hmlt⟩ < q
      · obtain ⟨i, hi1, hi2, hi3⟩ := ih (low + (high - low) / 2 + 1) high
          (by omega) (by omega) h2 (by omega)
          (by
            intro j hj
            rcases lt_or_eq_of_le (by omega : (j : Nat) ≤ (low + (high - low) / 2).toNat)
              with hlt | heq
            · have := hmono j ⟨(low + (high - low) / 2).toNat, hmlt⟩ hlt
              omega
            · have : keys.get j = keys.get ⟨(low + (high - low) / 2).toNat, hmlt⟩ := by
                congr 1
                exact Fin.ext heq
              omega)
          hhigh
        refine ⟨i, ?_, hi2, hi3⟩
        rw [findIndexGo]
        simp only [if_pos hlh, if_neg hmidneg, hk, if_pos hklt]
        exact hi1
      · by_cases hkgt : q < keys.get ⟨(low + (high - low) / 2).toNat, hmlt⟩
        · obtain ⟨i, hi1, hi2, hi3⟩ := ih low (low + (high - low) / 2 - 1)
            (by omega) h1 (by omega) (by omega) hlow
            (by
              intro j hj
              rcases lt_or_eq_of_le
                  (by omega : (low + (high - low) / 2).toNat ≤ (j : Nat)) with hlt | heq
              · have := hmono ⟨(low + (high - low) / 2).toNat, hmlt⟩ j hlt
                omega
              · have : keys.get j = keys.get ⟨(low + (high - low) / 2).toNat, hmlt⟩ := by
                  congr 1
                  exact Fin.ext heq.symm
                omega)
          refine ⟨i, ?_, hi2, hi3⟩
          rw [findIndexGo]
          simp only [if_pos hlh, if_neg hmidneg, hk, if_neg hklt, if_pos hkgt]
          exact hi1
        · refine ⟨⟨(low + (high - low) / 2).toNat, hmlt⟩, ?_, by omega, ?_⟩
          · rw [findIndexGo]
            simp only [if_pos hlh, if_neg hmidneg, hk, if_neg hklt, if_neg hkgt]
            congr 1
            omega
          · intro j hj
            have := hmono ⟨(low + (high - low) / 2).toNat, hmlt⟩ j hj
            omega
    · -- loop over: the post-loop index selection
      by_cases hneg : high < 0
      · exfalso
        have hh := hhigh ⟨0, hlen⟩ (by simpa using hneg)
        have := h0 hlen
        omega
      · by_cases hlen2 : (keys.length : Int) - 1 < low
        · have hlast : keys.length - 1 < keys.length := by omega
          refine ⟨⟨keys.length - 1, hlast⟩, ?_, ?_, ?_⟩
          · rw [findIndexGo]
            rw [if_neg hlh, if_neg hneg, if_pos hlen2]
            congr 1
            simp only [Fin.val_mk]
            omega
          · refine hlow ⟨keys.length - 1, hlast⟩ ?_
            simp only [Fin.val_mk]
            omega
          · intro j hj
            simp only [Fin.val_mk] at hj
            have := j.isLt
            omega
        · have hlow2 : ¬ (low < high) := by omega
          have hhlt : high.toNat < keys.length := by omega
          refine ⟨⟨high.toNat, hhlt⟩, ?_, ?_, ?_⟩
          · rw [findIndexGo]
            rw [if_neg hlh, if_neg hneg, if_neg hlen2, if_neg hlow2]
            congr 1
            simp only [Fin.val_mk]
            omega
          · refine hlow ⟨high.toNat, hhlt⟩ ?_
            simp only [Fin.val_mk]
            omega
          · intro j hj
            simp only [Fin.val_mk] at hj
            exact hhigh j (by omega)

/-- `find_index` finds the floor index: the greatest index whose key is `≤ q`,
provided the first key is `≤ q`. -/
theorem find_index_spec {keys : List Int} {q : Int}
    (hs : List.Pairwise (fun a b : Int => a < b) keys)
    (hne : keys ≠ [])
    (h0 : ∀ h : 0 < keys.length, keys.get ⟨0, h⟩ ≤ q) :
    ∃ i : Fin keys.length, find_index keys q = some ((i : Nat) : Int) ∧
      keys.get i ≤ q ∧ ∀ j : Fin keys.length, (i : Nat) < (j : Nat) → q < keys.get j := by
  have hlen : 0 < keys.length := List.length_pos.mpr hne
  exact findIndexGo_spec hs hne h0 (keys.length + 1) 0 ((keys.length : Int) - 1)
    (by omega) (le_refl 0) (by omega) (by omega)
    (by intro j hj; omega)
    (by intro j hj; have := j.isLt; omega)

/-! ### Correctness of `get` -/

theorem keysOf_pairwise {m : Table V} (hs : SortedT m) :
    List.Pairwise (fun a b : Int => a < b) (keysOf m) := by
  rw [keysOf, List.pairwise_map]
  exact hs

theorem lookup_eq_of_mem {m : Table V} (hs : SortedT m) {p : Int × V} (hp : p ∈ m) :
    List.lookup p.1 m = some p.2 := by
  induction m with
  | nil => cases hp
  | cons x t ih =>
    obtain ⟨hx, ht⟩ := sortedT_cons hs
    obtain ⟨k1, w1⟩ := x
    rcases List.mem_cons.mp hp with rfl | hp2
    · simp [List.lookup]
    · have hne : (p.1 == k1) = false := by
        rw [beq_eq_false_iff_ne]
        have := hx p hp2
        simp only [Prod.fst] at this
        omega
      simp only [List.lookup, hne]
      exact ih ht hp2

/-- `get` returns the value of the floor breakpoint. -/
theorem get?_eq_of_isFloorE {kmin : Int} {m : Table V} (hm : WF kmin m) {q : Int}
    (hq : kmin ≤ q) {p : Int × V} (hp : IsFloorE m q p) : get? m q = some p.2 := by
  have hkeys := keysOf_pairwise hm.1
  have hmono := List.pairwise_iff_get.mp hm.1
  have hlenk : (keysOf m).length = m.length := by rw [keysOf]; exact List.length_map m Prod.fst
  have hne : keysOf m ≠ [] := by
    obtain ⟨w, t, rfl⟩ := wf_shape hm; simp [keysOf]
  have h0 : ∀ h : 0 < (keysOf m).length, (keysOf m).get ⟨0, h⟩ ≤ q := by
    intro h
    obtain ⟨w, t, rfl⟩ := wf_shape hm
    simpa [keysOf] using hq
  obtain ⟨i, hfind, hile, higt⟩ := find_index_spec hkeys hne h0
  have hilt : (i : Nat) < m.length := by have := i.isLt; omega
  -- the entry at index i
  have hpi : (keysOf m).get i = (m.get ⟨(i : Nat), hilt⟩).1 := List.get_map Prod.fst
  -- it is the floor entry
  have hfloor : IsFloorE m q (m.get ⟨(i : Nat), hilt⟩) := by
    refine ⟨List.get_mem m _ _, by rw [← hpi]; exact hile, ?_⟩
    intro r hr hrq
    obtain ⟨j, hj⟩ := List.mem_iff_get.mp hr
    have hjk : (j : Nat) < (keysOf m).length := by have := j.isLt; omega
    rcases Nat.lt_trichotomy (i : Nat) (j : Nat) with hlt | heq | hgt
    · exfalso
      have := higt ⟨(j : Nat), hjk⟩ hlt
      have hjj : (keysOf m).get ⟨(j : Nat), hjk⟩ = r.1 := by
        have h2 : (keysOf m).get ⟨(j : Nat), hjk⟩ = (m.get ⟨(j : Nat), j.isLt⟩).1 :=
          List.get_map Prod.fst
        rw [h2]
        have : m.get ⟨(j : Nat), j.isLt⟩ = r := by rw [← hj]
        rw [this]
      rw [hjj] at this
      omega
    · have : m.get ⟨(i : Nat), hilt⟩ = r := by
        rw [← hj]; congr 1; exact Fin.ext heq
      rw [this]
    · have := hmono ⟨(j : Nat), j.isLt⟩ ⟨(i : Nat), hilt⟩ hgt
      have hjj : m.get ⟨(j : Nat), j.isLt⟩ = r := by rw [← hj]
      rw [hjj] at this
      exact le_of_lt this
  -- the floor entry is unique
  have hpeq : p = m.get ⟨(i : Nat), hilt⟩ := by
    refine entry_eq_of_key_eq hm.1 hp.1 hfloor.1 ?_
    have h1 := hp.2.2 _ hfloor.1 hfloor.2.1
    have h2 := hfloor.2.2 _ hp.1 hp.2.1
    omega
  -- now evaluate `get?`
  rw [get?]
  simp only [find_index] at hfind
  rw [find_index, hfind]
  have hnneg : ¬ (((i : Nat) : Int) < 0) := by omega
  simp only [hnneg, if_false, Int.toNat_natCast,
    List.get?_eq_get (show (i : Nat) < (keysOf m).length from i.isLt)]
  have hgi : (keysOf m).get ⟨(i : Nat), i.isLt⟩ = (m.get ⟨(i : Nat), hilt⟩).1 :=
    List.get_map Prod.fst
  rw [hgi, lookup_eq_of_mem hm.1 (List.get_mem m _ _), hpeq]

/-- `get` agrees with the spec-side floor search. -/
theorem get?_eq_specFloor {kmin : Int} {m : Table V} (hm : WF kmin m) {q : Int}
    (hq : kmin ≤ q) : get? m q = specFloor m q := by
  obtain ⟨p, hp, hpf⟩ := floorE_exists_wf hm hq
  rw [specFloor, hp, Option.map_some']
  exact get?_eq_of_isFloorE hm hq hpf

/-- `get` never hits a failure branch on a well-formed table. -/
theorem get?_total {kmin : Int} {m : Table V} (hm : WF kmin m) {q : Int}
    (hq : kmin ≤ q) : ∃ v, get? m q = some v := by
  obtain ⟨p, hp, hpf⟩ := floorE_exists_wf hm hq
  exact ⟨p.2, get?_eq_of_isFloorE hm hq hpf⟩

/-! ### `BTreeMap` insertion and removal on sorted tables -/

theorem btreeInsert_mem {m : Table V} (hs : SortedT m) {k : Int} {v : V} {p : Int × V} :
    p ∈ btreeInsert m k v ↔ p = (k, v) ∨ (p ∈ m ∧ p.1 ≠ k) := by
  induction m with
  | nil => simp [btreeInsert]
  | cons x t ih =>
    obtain ⟨hx, ht⟩ := sortedT_cons hs
    obtain ⟨k1, w1⟩ := x
    by_cases h1 : k < k1
    · simp only [btreeInsert, if_pos h1, List.mem_cons]
      constructor
      · rintro (rfl | rfl | h3)
        · exact Or.inl rfl
        · exact Or.inr ⟨Or.inl rfl, by simp; omega⟩
        · have := hx p h3
          exact Or.inr ⟨Or.inr h3, by omega⟩
      · rintro (rfl | ⟨h2, hne⟩)
        · exact Or.inl rfl
        · exact Or.inr h2
    · by_cases h2 : k = k1
      · simp only [btreeInsert, if_neg h1, if_pos h2, List.mem_cons]
        constructor
        · rintro (rfl | h3)
          · exact Or.inl rfl
          · have := hx p h3
            refine Or.inr ⟨Or.inr h3, ?_⟩
            simp only [Prod.fst] at this ⊢
            omega
        · rintro (rfl | ⟨h3 | h3, hne⟩)
          · exact Or.inl rfl
          · exfalso
            apply hne
            rw [h3]
            simp only [Prod.fst]
            omega
          · exact Or.inr h3
      · simp only [btreeInsert, if_neg h1, if_neg h2, List.mem_cons, ih ht]
        constructor
        · rintro (rfl | rfl | ⟨h3, hne⟩)
          · exact Or.inr ⟨Or.inl rfl, by simp; omega⟩
          · exact Or.inl rfl
          · exact Or.inr ⟨Or.inr h3, hne⟩
        · rintro (rfl | ⟨h3 | h3, hne⟩)
          · exact Or.inr (Or.inl rfl)
          · exact Or.inl h3
          · exact Or.inr (Or.inr ⟨h3, hne⟩)

theorem btreeInsert_sorted {m : Table V} (hs : SortedT m) (k : Int) (v : V) :
    SortedT (btreeInsert m k v) := by
  induction m with
  | nil => simp [btreeInsert, SortedT]
  | cons x t ih =>
    obtain ⟨hx, ht⟩ := sortedT_cons hs
    obtain ⟨k1, w1⟩ := x
    by_cases h1 : k < k1
    · simp only [btreeInsert, if_pos h1]
      refine List.pairwise_cons.mpr ⟨?_, hs⟩
      intro r hr
      rcases List.mem_cons.mp hr with rfl | h2
      · simpa using h1
      · have := hx r h2
        simp only [Prod.fst]
        omega
    · by_cases h2 : k = k1
      · subst h2
        simp only [btreeInsert, if_neg h1, if_pos rfl]
        refine List.pairwise_cons.mpr ⟨?_, ht⟩
        intro r hr
        have := hx r hr
        simpa using this
      · simp only [btreeInsert, if_neg h1, if_neg h2]
        refine List.pairwise_cons.mpr ⟨?_, ih ht⟩
        intro r hr
        rcases (btreeInsert_mem ht).mp hr with rfl | ⟨h3, hne⟩
        · simp only [Prod.fst]
          omega
        · exact hx r h3

theorem btreeRemove_eq_filter {m : Table V} (hs : SortedT m) (k : Int) :
    btreeRemove m k = m.filter (fun p => decide (p.1 ≠ k)) := by
  induction m with
  | nil => simp [btreeRemove]
  | cons x t ih =>
    obtain ⟨hx, ht⟩ := sortedT_cons hs
    obtain ⟨k1, w1⟩ := x
    by_cases h1 : k = k1
    · subst h1
      simp only [btreeRemove, if_pos rfl, List.filter_cons]
      have hc : (decide (((k : Int), w1).1 ≠ k)) = false := by simp
      rw [hc]
      simp only [Bool.false_eq_true, if_false]
      refine (List.filter_eq_self.mpr ?_).symm
      intro p hp
      have := hx p hp
      simp only [decide_eq_true_eq]
      omega
    · have h1s : k ≠ k1 := h1
      simp only [btreeRemove, if_neg h1, List.filter_cons]
      have hc : (decide ((k1, w1).1 ≠ k)) = true := by simp; omega
      rw [hc]
      simp only [if_true]
      rw [ih ht]

theorem foldl_btreeRemove_eq_filter {td : List Int} :
    ∀ {m : Table V}, SortedT m →
      td.foldl (fun mm k => btreeRemove mm k) m =
        m.filter (fun p => decide (p.1 ∉ td)) := by
  induction td with
  | nil =>
    intro m hs
    simp
  | cons k td ih =>
    intro m hs
    rw [List.foldl_cons, btreeRemove_eq_filter hs k,
      ih (sortedT_of_sublist (List.filter_sublist m) hs), List.filter_filter]
    refine List.filter_congr ?_
    intro p hp
    by_cases hk : p.1 = k <;> by_cases htd : p.1 ∈ td <;> simp [hk, htd]

/-! ### The scan loop of `insert` -/

/-- With a reversed range (`e < b`) the loop touches nothing. -/
theorem insertLoop_gt {b e : Int} (he : e < b) :
    ∀ (m : Table V) (bk : Int) (bv : V) (td : List Int),
      insertLoop b e m bk bv td = (bk, bv, td) := by
  intro m
  induction m with
  | nil => intro bk bv td; rfl
  | cons x t ih =>
    intro bk bv td
    obtain ⟨k, w⟩ := x
    by_cases h1 : k < b
    · simp only [insertLoop, if_pos h1]
      exact ih bk bv td
    · simp only [insertLoop, if_neg h1, if_pos (by omega : e < k)]

/-- Loop characterization over entries whose keys all exceed `before_key`. -/
theorem insertLoop_main {b e : Int} :
    ∀ {R : Table V}, SortedT R → (∀ p ∈ R, b ≤ p.1) →
      ∀ (bk : Int), (∀ p ∈ R, bk < p.1) → ∀ (bv : V) (td : List Int),
      insertLoop b e R bk bv td =
        (((R.filter (fun p => decide (p.1 ≤ e))).map Prod.fst).getLastD bk,
         ((R.filter (fun p => decide (p.1 ≤ e))).map Prod.snd).getLastD bv,
         td ++ (R.filter (fun p => decide (p.1 ≤ e))).map Prod.fst) := by
  intro R
  induction R with
  | nil =>
    intro hs hge bk hbk bv td
    simp [insertLoop]
  | cons x t ih =>
    intro hs hge bk hbk bv td
    obtain ⟨hx, ht⟩ := sortedT_cons hs
    obtain ⟨k, w⟩ := x
    have hkb : b ≤ k := by
      have := hge (k, w) (List.mem_cons_self _ _)
      simpa using this
    have hbkk : bk < k := by
      have := hbk (k, w) (List.mem_cons_self _ _)
      simpa using this
    by_cases h2 : e < k
    · have hfil : ((k, w) :: t).filter (fun p => decide (p.1 ≤ e)) = [] := by
        rw [List.filter_eq_nil]
        intro p hp
        rcases List.mem_cons.mp hp with rfl | h3
        · simp only [Prod.fst, decide_eq_true_eq]
          omega
        · have := hx p h3
          simp only [Prod.fst] at this
          simp only [decide_eq_true_eq]
          omega
      simp only [insertLoop, if_neg (by omega : ¬ k < b), if_pos h2, hfil,
        List.map_nil, List.getLastD_nil, List.append_nil]
    · have hstep : (if bk = k then td else td ++ [k]) = td ++ [k] :=
        if_neg (by omega)
      simp only [insertLoop, if_neg (by omega : ¬ k < b), if_neg h2, hstep]
      rw [ih ht
        (fun p hp => by have := hx p hp; simp only [Prod.fst] at this; omega)
        k (fun p hp => hx p hp) w (td ++ [k])]
      have hfil : ((k, w) :: t).filter (fun p => decide (p.1 ≤ e)) =
          (k, w) :: t.filter (fun p => decide (p.1 ≤ e)) := by
        refine List.filter_cons_of_pos ?_
        simp only [Prod.fst, decide_eq_true_eq]
        omega
      rw [hfil]
      simp only [List.map_cons, List.getLastD_cons, List.append_assoc,
        List.singleton_append]

/-- Full characterization of the loop started from `before_key = begin_key`
on a sorted table: `before_val` ends as the value of the last visited entry
and `to_delete` collects the keys in `(begin_key, end_key]`. -/
theorem insertLoop_run {b e : Int} {m : Table V} (hs : SortedT m) (bv : V) :
    insertLoop b e m b bv [] =
      (((m.filter (fun p => decide (b ≤ p.1) && decide (p.1 ≤ e))).map Prod.fst).getLastD b,
       ((m.filter (fun p => decide (b ≤ p.1) && decide (p.1 ≤ e))).map Prod.snd).getLastD bv,
       (m.filter (fun p => decide (b < p.1) && decide (p.1 ≤ e))).map Prod.fst) := by
  induction m with
  | nil => simp [insertLoop]
  | cons x t ih =>
    obtain ⟨hx, ht⟩ := sortedT_cons hs
    obtain ⟨k, w⟩ := x
    by_cases h1 : k < b
    · rw [List.filter_cons, List.filter_cons]
      rw [if_neg (by simp only [Bool.and_eq_true, decide_eq_true_eq]; omega :
            ¬ ((decide (b ≤ ((k, w) : Int × V).1) && decide (((k, w) : Int × V).1 ≤ e)) = true))]
      rw [if_neg (by simp only [Bool.and_eq_true, decide_eq_true_eq]; omega :
            ¬ ((decide (b < ((k, w) : Int × V).1) && decide (((k, w) : Int × V).1 ≤ e)) = true))]
      simp only [insertLoop, if_pos h1]
      exact ih ht
    · by_cases h2 : e < k
      · have hf1 : ((k, w) :: t).filter (fun p => decide (b ≤ p.1) && decide (p.1 ≤ e)) = [] := by
          rw [List.filter_eq_nil]
          intro p hp
          rcases List.mem_cons.mp hp with rfl | h3
          · simp only [Prod.fst, Bool.and_eq_true, decide_eq_true_eq]
            omega
          · have := hx p h3
            simp only [Prod.fst] at this
            simp only [Bool.and_eq_true, decide_eq_true_eq]
            omega
        have hf2 : ((k, w) :: t).filter (fun p => decide (b < p.1) && decide (p.1 ≤ e)) = [] := by
          rw [List.filter_eq_nil]
          intro p hp
          rcases List.mem_cons.mp hp with rfl | h3
          · simp only [Prod.fst, Bool.and_eq_true, decide_eq_true_eq]
            omega
          · have := hx p h3
            simp only [Prod.fst] at this
            simp only [Bool.and_eq_true, decide_eq_true_eq]
            omega
        rw [hf1, hf2]
        simp only [insertLoop, if_neg h1, if_pos h2, List.map_nil,
          List.getLastD_nil]
      · -- k is visited: b ≤ k ≤ e
        have htk : ∀ p ∈ t, k < p.1 := fun p hp => hx p hp
        have htb : ∀ p ∈ t, b ≤ p.1 := by
          intro p hp
          have := hx p hp
          simp only [Prod.fst] at this
          omega
        have hmain := insertLoop_main (b := b) (e := e) ht htb k htk w
        have hteq : t.filter (fun p => decide (b ≤ p.1) && decide (p.1 ≤ e)) =
            t.filter (fun p => decide (p.1 ≤ e)) := by
          refine List.filter_congr ?_
          intro p hp
          have h4 := htb p hp
          by_cases hle : p.1 ≤ e <;> simp [hle, h4]
        have hteq2 : t.filter (fun p => decide (b < p.1) && decide (p.1 ≤ e)) =
            t.filter (fun p => decide (p.1 ≤ e)) := by
          refine List.filter_congr ?_
          intro p hp
          have h5 : b < p.1 := by have := htk p hp; omega
          by_cases hle : p.1 ≤ e <;> simp [hle, h5]
        have hf1 : ((k, w) :: t).filter (fun p => decide (b ≤ p.1) && decide (p.1 ≤ e)) =
            (k, w) :: t.filter (fun p => decide (p.1 ≤ e)) := by
          rw [List.filter_cons_of_pos (by
            simp only [Prod.fst, Bool.and_eq_true, decide_eq_true_eq]
            omega), hteq]
        rw [hf1]
        by_cases h3 : b = k
        · have hf2 : ((k, w) :: t).filter (fun p => decide (b < p.1) && decide (p.1 ≤ e)) =
              t.filter (fun p => decide (p.1 ≤ e)) := by
            rw [List.filter_cons_of_neg (by
              simp only [Prod.fst, Bool.and_eq_true, decide_eq_true_eq]
              omega), hteq2]
          rw [hf2]
          simp only [insertLoop, if_neg h1, if_neg h2, if_pos h3]
          rw [hmain []]
          simp only [List.map_cons, List.getLastD_cons, List.nil_append]
        · have hf2 : ((k, w) :: t).filter (fun p => decide (b < p.1) && decide (p.1 ≤ e)) =
              (k, w) :: t.filter (fun p => decide (p.1 ≤ e)) := by
            rw [List.filter_cons_of_pos (by
              simp only [Prod.fst, Bool.and_eq_true, decide_eq_true_eq]
              omega), hteq2]
          rw [hf2]
          simp only [insertLoop, if_neg h1, if_neg h2, if_neg h3]
          rw [List.nil_append, hmain [k]]
          simp only [List.map_cons, List.getLastD_cons, List.singleton_append]

/-! ### The shape of `insert` -/

/-- The final `before_val` of the loop is the value covering `end_key`
before the call (the carry value of the splice). -/
theorem loopVal_eq_floorE {kmin b e : Int} {m : Table V} (hm : WF kmin m)
    (hb : kmin ≤ b) (hbe : b ≤ e) {bv : V} (hbv : specFloor m b = some bv) :
    specFloor m e =
      some (((m.filter (fun p => decide (b ≤ p.1) && decide (p.1 ≤ e))).map Prod.snd).getLastD bv) := by
  obtain ⟨p0, hp0, hp0v⟩ := Option.map_eq_some'.mp hbv
  have hfl0 := isFloorE_of_floorE hm.1 hp0
  by_cases hQ : m.filter (fun p => decide (b ≤ p.1) && decide (p.1 ≤ e)) = []
  · have hnone : ∀ r ∈ m, ¬ (b ≤ r.1 ∧ r.1 ≤ e) := by
      intro r hr hc
      have hrf : r ∈ m.filter (fun p => decide (b ≤ p.1) && decide (p.1 ≤ e)) :=
        List.mem_filter.mpr ⟨hr, by
          simp only [Bool.and_eq_true, decide_eq_true_eq]
          exact hc⟩
      rw [hQ] at hrf
      cases hrf
    have hfl : IsFloorE m e p0 := by
      refine ⟨hfl0.1, le_trans hfl0.2.1 hbe, ?_⟩
      intro r hr hre
      by_cases hrb : r.1 < b
      · have := hfl0.2.2 r hr (by omega)
        omega
      · exact absurd ⟨by omega, hre⟩ (hnone r hr)
    rw [specFloor, floorE_of_isFloorE hm.1 hfl, Option.map_some', hp0v, hQ]
    simp
  · obtain ⟨pL, hpL⟩ := Option.isSome_iff_exists.mp (List.getLast?_isSome.mpr hQ)
    have hpLf := mem_of_getLast? hpL
    obtain ⟨hpLm, hpLc⟩ := List.mem_filter.mp hpLf
    simp only [Bool.and_eq_true, decide_eq_true_eq] at hpLc
    have hfl : IsFloorE m e pL := by
      refine ⟨hpLm, hpLc.2, ?_⟩
      intro r hr hre
      by_cases hrb : r.1 < b
      · omega
      · have hrf : r ∈ m.filter (fun p => decide (b ≤ p.1) && decide (p.1 ≤ e)) :=
          List.mem_filter.mpr ⟨hr, by
            simp only [Bool.and_eq_true, decide_eq_true_eq]
            omega⟩
        exact key_le_getLast (sortedT_of_sublist (List.filter_sublist m) hm.1) hrf hpL
    rw [specFloor, floorE_of_isFloorE hm.1 hfl, Option.map_some']
    congr 1
    rw [List.getLastD_eq_getLast?, List.getLast?_map, hpL, Option.map_some']
    rfl

theorem mem_todel_iff {m : Table V} (hs : SortedT m) {b e : Int} {p : Int × V}
    (hp : p ∈ m) :
    p.1 ∈ (m.filter (fun r => decide (b < r.1) && decide (r.1 ≤ e))).map Prod.fst ↔
      (b < p.1 ∧ p.1 ≤ e) := by
  constructor
  · intro h
    obtain ⟨r, hr, hre⟩ := List.mem_map.mp h
    obtain ⟨hrm, hcond⟩ := List.mem_filter.mp hr
    simp only [Bool.and_eq_true, decide_eq_true_eq] at hcond
    omega
  · intro h
    refine List.mem_map.mpr ⟨p, List.mem_filter.mpr ⟨hp, ?_⟩, rfl⟩
    simp only [Bool.and_eq_true, decide_eq_true_eq]
    omega

/-- Deleting the collected keys removes exactly the entries in `(b, e]`. -/
theorem remove_todel {m : Table V} (hs : SortedT m) (b e : Int) :
    ((m.filter (fun r => decide (b < r.1) && decide (r.1 ≤ e))).map Prod.fst).foldl
        (fun mm k => btreeRemove mm k) m =
      m.filter (fun p => decide (¬ (b < p.1 ∧ p.1 ≤ e))) := by
  rw [foldl_btreeRemove_eq_filter hs]
  refine List.filter_congr ?_
  intro p hp
  have hiff := mem_todel_iff hs hp (b := b) (e := e)
  by_cases h1 : b < p.1 <;> by_cases h2 : p.1 ≤ e
  · have hmem := hiff.mpr ⟨h1, h2⟩
    simp [hmem, h1, h2]
  · have hmem : p.1 ∉ (m.filter (fun r => decide (b < r.1) && decide (r.1 ≤ e))).map Prod.fst :=
      fun hc => by have := hiff.mp hc; omega
    simp [hmem, h1, h2]
  · have hmem : p.1 ∉ (m.filter (fun r => decide (b < r.1) && decide (r.1 ≤ e))).map Prod.fst :=
      fun hc => by have := hiff.mp hc; omega
    simp [hmem, h1, h2]
  · have hmem : p.1 ∉ (m.filter (fun r => decide (b < r.1) && decide (r.1 ≤ e))).map Prod.fst :=
      fun hc => by have := hiff.mp hc; omega
    simp [hmem, h1, h2]

/-- The table left by the splice of `insert`: the entries with keys in
`(b, e]` cleared, then the two conditional breakpoint insertions. -/
def spliceOf (m : Table V) (b e : Int) (v bv0 cv : V) : Table V :=
  if cv = v then
    (if bv0 = v then m.filter (fun p => decide (¬ (b < p.1 ∧ p.1 ≤ e)))
     else btreeInsert (m.filter (fun p => decide (¬ (b < p.1 ∧ p.1 ≤ e)))) b v)
  else btreeInsert
    (if bv0 = v then m.filter (fun p => decide (¬ (b < p.1 ∧ p.1 ≤ e)))
     else btreeInsert (m.filter (fun p => decide (¬ (b < p.1 ∧ p.1 ≤ e)))) b v) e cv

/-- The table produced by `insert`, written as filter-out plus the two
conditional breakpoint insertions. -/
theorem insert_shape {kmin b e : Int} {m : Table V} (hm : WF kmin m)
    (hb : kmin ≤ b) (v : V) :
    ∃ bv0 cv,
      get? m b = some bv0 ∧ specFloor m b = some bv0 ∧
      cv = ((m.filter (fun p => decide (b ≤ p.1) && decide (p.1 ≤ e))).map Prod.snd).getLastD bv0 ∧
      insert? m b e v = some (spliceOf m b e v bv0 cv) := by
  obtain ⟨p0, hf, hfe⟩ := floorE_exists_wf hm hb
  have hget : get? m b = some p0.2 := get?_eq_of_isFloorE hm hb hfe
  have hspec : specFloor m b = some p0.2 := by rw [specFloor, hf, Option.map_some']
  refine ⟨p0.2, _, hget, hspec, rfl, ?_⟩
  have hrun := insertLoop_run (b := b) (e := e) hm.1 p0.2
  have hrem := remove_todel hm.1 b e
  simp only [insert?, hget, hrun, hrem, spliceOf]

theorem spliceOf_sorted {b e : Int} {m : Table V} (hs : SortedT m) (v bv0 cv : V) :
    SortedT (spliceOf m b e v bv0 cv) := by
  have hs1 : SortedT (m.filter (fun p => decide (¬ (b < p.1 ∧ p.1 ≤ e)))) :=
    sortedT_of_sublist (List.filter_sublist m) hs
  rw [spliceOf]
  by_cases h2 : cv = v <;> by_cases h1 : bv0 = v
  · rw [if_pos h2, if_pos h1]; exact hs1
  · rw [if_pos h2, if_neg h1]; exact btreeInsert_sorted hs1 _ _
  · rw [if_neg h2, if_pos h1]; exact btreeInsert_sorted hs1 _ _
  · rw [if_neg h2, if_neg h1]; exact btreeInsert_sorted (btreeInsert_sorted hs1 _ _) _ _

/-- Membership in the spliced table. -/
theorem spliceOf_mem {b e : Int} {m : Table V} (hs : SortedT m) {v bv0 cv : V}
    {p : Int × V} :
    p ∈ spliceOf m b e v bv0 cv ↔
      ((cv ≠ v ∧ p = (e, cv)) ∨
       (bv0 ≠ v ∧ p = (b, v) ∧ (cv = v ∨ p.1 ≠ e)) ∨
       (p ∈ m ∧ ¬ (b < p.1 ∧ p.1 ≤ e) ∧ (bv0 = v ∨ p.1 ≠ b) ∧ (cv = v ∨ p.1 ≠ e))) := by
  have hs1 : SortedT (m.filter (fun p => decide (¬ (b < p.1 ∧ p.1 ≤ e)))) :=
    sortedT_of_sublist (List.filter_sublist m) hs
  have hmem1 : ∀ r : Int × V,
      r ∈ m.filter (fun p => decide (¬ (b < p.1 ∧ p.1 ≤ e))) ↔
        r ∈ m ∧ ¬ (b < r.1 ∧ r.1 ≤ e) := by
    intro r
    rw [List.mem_filter, decide_eq_true_eq]
  rw [spliceOf]
  by_cases h2 : cv = v <;> by_cases h1 : bv0 = v
  · rw [if_pos h2, if_pos h1]
    simp only [hmem1]
    tauto
  · rw [if_pos h2, if_neg h1]
    simp only [btreeInsert_mem hs1, hmem1]
    tauto
  · rw [if_neg h2, if_pos h1]
    simp only [btreeInsert_mem hs1, hmem1]
    tauto
  · rw [if_neg h2, if_neg h1]
    simp only [btreeInsert_mem (btreeInsert_sorted hs1 b v), btreeInsert_mem hs1, hmem1]
    tauto

/-! ### The effect of `insert` on the covering values -/

theorem head_of_min_mem {m : Table V} (hs : SortedT m) {k0 : Int} {w : V}
    (hmem : (k0, w) ∈ m) (hmin : ∀ p ∈ m, k0 ≤ p.1) :
    (keysOf m).head? = some k0 := by
  cases m with
  | nil => cases hmem
  | cons x t =>
    obtain ⟨hx, ht⟩ := sortedT_cons hs
    rcases List.mem_cons.mp hmem with heq | hmem2
    · rw [← heq]
      simp [keysOf]
    · exfalso
      have h1 := hx _ hmem2
      have h2 := hmin x (List.mem_cons_self _ _)
      omega

theorem spliceOf_wf {kmin b e : Int} {m : Table V} (hm : WF kmin m)
    (hb : kmin ≤ b) (hbe : b ≤ e) (v bv0 cv : V) :
    WF kmin (spliceOf m b e v bv0 cv) := by
  obtain ⟨w0, t0, hm0⟩ := wf_shape hm
  have hsent : ((kmin, w0) : Int × V) ∈ m := by
    rw [hm0]; exact List.mem_cons_self _ _
  have hsorted := spliceOf_sorted (b := b) (e := e) hm.1 v bv0 cv
  have hlb : ∀ p ∈ spliceOf m b e v bv0 cv, kmin ≤ p.1 := by
    intro p hp
    rcases (spliceOf_mem hm.1).mp hp with ⟨h2, rfl⟩ | ⟨h1, rfl, h3⟩ | ⟨hpm, _, _, _⟩
    · omega
    · omega
    · exact wf_key_lb hm p hpm
  have hsnb : ¬ (b < (kmin : Int) ∧ (kmin : Int) ≤ e) := by omega
  have hmem : ∃ w, ((kmin, w) : Int × V) ∈ spliceOf m b e v bv0 cv := by
    by_cases h2 : cv = v
    · by_cases h1 : bv0 = v
      · exact ⟨w0, (spliceOf_mem hm.1).mpr
          (Or.inr (Or.inr ⟨hsent, hsnb, Or.inl h1, Or.inl h2⟩))⟩
      · by_cases hbk : b = kmin
        · refine ⟨v, (spliceOf_mem hm.1).mpr (Or.inr (Or.inl ⟨h1, ?_, Or.inl h2⟩))⟩
          rw [hbk]
        · exact ⟨w0, (spliceOf_mem hm.1).mpr
            (Or.inr (Or.inr ⟨hsent, hsnb, Or.inr (by omega), Or.inl h2⟩))⟩
    · by_cases he : e = kmin
      · refine ⟨cv, (spliceOf_mem hm.1).mpr (Or.inl ⟨h2, ?_⟩)⟩
        rw [he]
      · by_cases h1 : bv0 = v
        · exact ⟨w0, (spliceOf_mem hm.1).mpr
            (Or.inr (Or.inr ⟨hsent, hsnb, Or.inl h1, Or.inr (by omega)⟩))⟩
        · by_cases hbk : b = kmin
          · refine ⟨v, (spliceOf_mem hm.1).mpr (Or.inr (Or.inl ⟨h1, ?_, Or.inr (by omega)⟩))⟩
            rw [hbk]
          · exact ⟨w0, (spliceOf_mem hm.1).mpr
              (Or.inr (Or.inr ⟨hsent, hsnb, Or.inr (by omega), Or.inr (by omega)⟩))⟩
  obtain ⟨w, hw⟩ := hmem
  exact ⟨hsorted, head_of_min_mem hsorted hw hlb⟩

/-- The effect of the splice: keys in `[b, e)` now map to `v`, all other
keys keep their old covering value. -/
theorem spliceOf_floor {kmin b e : Int} {m : Table V} (hm : WF kmin m)
    (hb : kmin ≤ b) (hbe : b ≤ e) {v bv0 cv : V}
    (hbv : specFloor m b = some bv0) (hcve : specFloor m e = some cv)
    {q : Int} (hq : kmin ≤ q) :
    specFloor (spliceOf m b e v bv0 cv) q =
      if b ≤ q ∧ q < e then some v else specFloor m q := by
  have hsorted := spliceOf_sorted (b := b) (e := e) hm.1 v bv0 cv
  rw [specFloor] at hbv hcve
  obtain ⟨pb, hpb, hpbv⟩ := Option.map_eq_some'.mp hbv
  have hpbf := isFloorE_of_floorE hm.1 hpb
  have hpb1 : pb.1 ≤ b := hpbf.2.1
  obtain ⟨pe, hpe, hpev⟩ := Option.map_eq_some'.mp hcve
  have hpef := isFloorE_of_floorE hm.1 hpe
  have hpe1 : pe.1 ≤ e := hpef.2.1
  by_cases hqb : q < b
  · -- q below the range: nothing changed
    rw [if_neg (by omega)]
    obtain ⟨pq, hpq, hpqf⟩ := floorE_exists_wf hm hq
    have hpq1 : pq.1 ≤ q := hpqf.2.1
    have hflq : IsFloorE (spliceOf m b e v bv0 cv) q pq := by
      refine ⟨(spliceOf_mem hm.1).mpr
        (Or.inr (Or.inr ⟨hpqf.1, by omega, Or.inr (by omega), Or.inr (by omega)⟩)),
        hpq1, ?_⟩
      intro r hr hrq
      rcases (spliceOf_mem hm.1).mp hr with ⟨_, rfl⟩ | ⟨_, rfl, _⟩ | ⟨hrm, _, _, _⟩
      · omega
      · omega
      · exact hpqf.2.2 r hrm hrq
    rw [specFloor, floorE_of_isFloorE hsorted hflq, Option.map_some',
      specFloor, hpq, Option.map_some']
  · by_cases hqe : q < e
    · -- q inside [b, e): covered by v
      rw [if_pos ⟨by omega, hqe⟩]
      by_cases h1 : bv0 = v
      · have hfb : IsFloorE (spliceOf m b e v bv0 cv) q pb := by
          refine ⟨(spliceOf_mem hm.1).mpr
            (Or.inr (Or.inr ⟨hpbf.1, by omega, Or.inl h1, Or.inr (by omega)⟩)),
            by omega, ?_⟩
          intro r hr hrq
          rcases (spliceOf_mem hm.1).mp hr with ⟨hcv2, rfl⟩ | ⟨hbv2, rfl, _⟩ | ⟨hrm, hnr, _, _⟩
          · omega
          · exact absurd h1 hbv2
          · exact hpbf.2.2 r hrm (by omega)
        rw [specFloor, floorE_of_isFloorE hsorted hfb, Option.map_some', hpbv, h1]
      · have hfb : IsFloorE (spliceOf m b e v bv0 cv) q (b, v) := by
          refine ⟨(spliceOf_mem hm.1).mpr
            (Or.inr (Or.inl ⟨h1, rfl, Or.inr (by omega)⟩)), by omega, ?_⟩
          intro r hr hrq
          rcases (spliceOf_mem hm.1).mp hr with ⟨hcv2, rfl⟩ | ⟨hbv2, rfl, _⟩ | ⟨hrm, hnr, _, _⟩
          · omega
          · omega
          · omega
        rw [specFloor, floorE_of_isFloorE hsorted hfb, Option.map_some']
    · -- q at or beyond e: nothing changed
      rw [if_neg (by omega)]
      by_cases hmid : ∃ r ∈ m, e < r.1 ∧ r.1 ≤ q
      · -- an untouched breakpoint beyond e still covers q
        obtain ⟨pq, hpq, hpqf⟩ := floorE_exists_wf hm hq
        have hpq1 : pq.1 ≤ q := hpqf.2.1
        obtain ⟨r0, hr0m, hr0⟩ := hmid
        have hpqgt : e < pq.1 := by
          have := hpqf.2.2 r0 hr0m (by omega)
          omega
        have hfq : IsFloorE (spliceOf m b e v bv0 cv) q pq := by
          refine ⟨(spliceOf_mem hm.1).mpr
            (Or.inr (Or.inr ⟨hpqf.1, by omega, Or.inr (by omega), Or.inr (by omega)⟩)),
            hpq1, ?_⟩
          intro r hr hrq
          rcases (spliceOf_mem hm.1).mp hr with ⟨_, rfl⟩ | ⟨_, rfl, _⟩ | ⟨hrm, _, _, _⟩
          · omega
          · omega
          · exact hpqf.2.2 r hrm hrq
        rw [specFloor, floorE_of_isFloorE hsorted hfq, Option.map_some',
          specFloor, hpq, Option.map_some']
      · -- the carry value covers q
        have hfqm : IsFloorE m q pe := by
          refine ⟨hpef.1, by omega, ?_⟩
          intro r hr hrq
          by_cases hre : r.1 ≤ e
          · exact hpef.2.2 r hr hre
          · exact absurd hrq (by
              have h5 : ¬ (e < r.1 ∧ r.1 ≤ q) := fun hc => hmid ⟨r, hr, hc⟩
              omega)
        have hmq : specFloor m q = some cv := by
          rw [specFloor, floorE_of_isFloorE hm.1 hfqm, Option.map_some', hpev]
        rw [hmq]
        by_cases h2 : cv = v
        · by_cases h1 : bv0 = v
          · have hfb : IsFloorE (spliceOf m b e v bv0 cv) q pb := by
              refine ⟨(spliceOf_mem hm.1).mpr
                (Or.inr (Or.inr ⟨hpbf.1, by omega, Or.inl h1, Or.inl h2⟩)),
                by omega, ?_⟩
              intro r hr hrq
              rcases (spliceOf_mem hm.1).mp hr with ⟨hcv2, rfl⟩ | ⟨hbv2, rfl, _⟩ | ⟨hrm, hnr, _, _⟩
              · exact absurd h2 hcv2
              · exact absurd h1 hbv2
              · have h5 : ¬ (e < r.1 ∧ r.1 ≤ q) := fun hc => hmid ⟨r, hrm, hc⟩
                exact hpbf.2.2 r hrm (by omega)
            rw [specFloor, floorE_of_isFloorE hsorted hfb, Option.map_some', hpbv, h1, h2]
          · have hfb : IsFloorE (spliceOf m b e v bv0 cv) q (b, v) := by
              refine ⟨(spliceOf_mem hm.1).mpr
                (Or.inr (Or.inl ⟨h1, rfl, Or.inl h2⟩)), by omega, ?_⟩
              intro r hr hrq
              rcases (spliceOf_mem hm.1).mp hr with ⟨hcv2, rfl⟩ | ⟨hbv2, rfl, _⟩ | ⟨hrm, hnr, _, _⟩
              · exact absurd h2 hcv2
              · omega
              · have h5 : ¬ (e < r.1 ∧ r.1 ≤ q) := fun hc => hmid ⟨r, hrm, hc⟩
                omega
            rw [specFloor, floorE_of_isFloorE hsorted hfb, Option.map_some', h2]
        · have hfe2 : IsFloorE (spliceOf m b e v bv0 cv) q (e, cv) := by
            refine ⟨(spliceOf_mem hm.1).mpr (Or.inl ⟨h2, rfl⟩), by omega, ?_⟩
            intro r hr hrq
            rcases (spliceOf_mem hm.1).mp hr with ⟨_, rfl⟩ | ⟨_, rfl, _⟩ | ⟨hrm, hnr, _, _⟩
            · omega
            · omega
            · have h5 : ¬ (e < r.1 ∧ r.1 ≤ q) := fun hc => hmid ⟨r, hrm, hc⟩
              omega
          rw [specFloor, floorE_of_isFloorE hsorted hfe2, Option.map_some']

/-- Full effect of `insert` on a well-formed table with `b ≤ e`: it succeeds,
preserves well-formedness, and the covering value becomes `v` exactly on
`[b, e)`. -/
theorem insert_effect {kmin b e : Int} {m : Table V} (hm : WF kmin m)
    (hb : kmin ≤ b) (hbe : b ≤ e) (v : V) :
    ∃ m2, insert? m b e v = some m2 ∧ WF kmin m2 ∧
      ∀ q, kmin ≤ q →
        specFloor m2 q = if b ≤ q ∧ q < e then some v else specFloor m q := by
  obtain ⟨bv0, cv, hget, hbv, hcv, hins⟩ := insert_shape (e := e) hm hb v
  have hcve : specFloor m e = some cv := by
    rw [hcv]
    exact loopVal_eq_floorE hm hb hbe hbv
  exact ⟨_, hins, spliceOf_wf hm hb hbe v bv0 cv,
    fun q hq => spliceOf_floor hm hb hbe hbv hcve hq⟩

/-! ### Reachable tables and the last-write-wins invariant -/

theorem lastWrite_append_cov {v0 : V} {ops : List (Int × Int × V)}
    {op : Int × Int × V} {q : Int} (h1 : op.1 ≤ q) (h2 : q < op.2.1) :
    lastWrite v0 (ops ++ [op]) q = op.2.2 := by
  rw [lastWrite, List.filter_append]
  have hf : List.filter (fun o => decide (o.1 ≤ q) && decide (q < o.2.1)) [op] = [op] := by
    simp [h1, h2]
  rw [hf, List.getLast?_concat]

theorem lastWrite_append_not {v0 : V} {ops : List (Int × Int × V)}
    {op : Int × Int × V} {q : Int} (h : ¬ (op.1 ≤ q ∧ q < op.2.1)) :
    lastWrite v0 (ops ++ [op]) q = lastWrite v0 ops q := by
  rw [lastWrite, lastWrite, List.filter_append]
  have hf : List.filter (fun o => decide (o.1 ≤ q) && decide (q < o.2.1)) [op] = [] := by
    rcases not_and_or.mp h with h1 | h1 <;> simp [h1]
  rw [hf, List.append_nil]

/-- After `new` and any sequence of valid inserts, the covering value of
every key is the value of the most recent insert covering it. -/
theorem run_spec {kmin : Int} (v0 : V) {ops : List (Int × Int × V)}
    (hops : ValidOps kmin ops) :
    ∃ m, run kmin v0 ops = some m ∧ WF kmin m ∧
      ∀ q, kmin ≤ q → specFloor m q = some (lastWrite v0 ops q) := by
  induction ops using List.reverseRecOn with
  | nil =>
    refine ⟨new kmin v0, rfl, ⟨?_, ?_⟩, ?_⟩
    · simp [SortedT, new]
    · simp [keysOf, new]
    · intro q hq
      simp [new, specFloor, floorE, lastWrite, hq]
  | append_singleton ops op ih =>
    have hops1 : ValidOps kmin ops := fun o ho =>
      hops o (List.mem_append.mpr (Or.inl ho))
    obtain ⟨hopb, hope⟩ := hops op (List.mem_append.mpr (Or.inr (List.mem_cons_self _ _)))
    obtain ⟨m, hrun, hwf, hfl⟩ := ih hops1
    obtain ⟨m2, hins, hwf2, hfl2⟩ := insert_effect hwf hopb hope op.2.2
    have hrun2 : run kmin v0 (ops ++ [op]) = some m2 := by
      rw [run, List.foldlM_append]
      rw [run] at hrun
      rw [hrun]
      simp only [Option.bind_eq_bind, Option.some_bind, List.foldlM_cons, List.foldlM_nil]
      rw [hins]
      rfl
    refine ⟨m2, hrun2, hwf2, ?_⟩
    intro q hq
    rw [hfl2 q hq]
    by_cases hcov : op.1 ≤ q ∧ q < op.2.1
    · rw [if_pos hcov, lastWrite_append_cov hcov.1 hcov.2]
    · rw [if_neg hcov, lastWrite_append_not hcov, hfl q hq]

theorem reachable_wf {kmin : Int} {v0 : V} {m : Table V}
    (hr : Reachable kmin v0 m) : WF kmin m := by
  obtain ⟨ops, hops, hrun⟩ := hr
  obtain ⟨m2, hrun2, hwf, _⟩ := run_spec v0 hops
  have h := hrun.symm.trans hrun2
  rw [Option.some_inj] at h
  rw [h]
  exact hwf

/-! ### `insert` with a reversed range -/

/-- The table produced by `insert` when `end_key < begin_key`: nothing is
deleted, and unless the value already covers `begin_key`, the two
breakpoints `(begin_key, val)` and `(end_key, old value at begin_key)` are
written. -/
theorem insert_gt_shape {kmin b e : Int} {m : Table V} (hm : WF kmin m)
    (hb : kmin ≤ b) (he : e < b) (v : V) :
    ∃ bv0, get? m b = some bv0 ∧ specFloor m b = some bv0 ∧
      insert? m b e v =
        some (if bv0 = v then m else btreeInsert (btreeInsert m b v) e bv0) := by
  obtain ⟨p0, hf, hfe⟩ := floorE_exists_wf hm hb
  have hget : get? m b = some p0.2 := get?_eq_of_isFloorE hm hb hfe
  refine ⟨p0.2, hget, by rw [specFloor, hf, Option.map_some'], ?_⟩
  have hloop := insertLoop_gt (b := b) (e := e) he m b p0.2 []
  simp only [insert?, hget, hloop, List.foldl_nil]
  by_cases h1 : p0.2 = v
  · simp [h1]
  · simp [h1]

/-! ### The claims -/

/-- C1.  Last-write-wins semantics: for every map built by `new(v0)` followed
by any finite sequence of `insert(b_i, e_i, v_i)` calls each satisfying
`b_i ≤ e_i` (with keys in the domain, i.e. at least the sentinel `kmin`),
and for every key `q`, `get(q)` returns the value of the most recent insert
whose half-open range `[b_i, e_i)` contains `q`, and `v0` if no insert's
range ever contained `q`. -/
theorem claim_C1_last_write_wins {kmin : Int} {v0 : V}
    {ops : List (Int × Int × V)}
    (hops : ∀ op ∈ ops, kmin ≤ op.1 ∧ op.1 ≤ op.2.1)
    {q : Int} (hq : kmin ≤ q) :
    ∃ m, run kmin v0 ops = some m ∧ get? m q = some (lastWrite v0 ops q) := by
  obtain ⟨m, hrun, hwf, hfl⟩ := run_spec v0 hops
  exact ⟨m, hrun, by rw [get?_eq_specFloor hwf hq, hfl q hq]⟩

/-- C2.  Range assignment: on every reachable map, immediately after
`insert(b, e, v)` with `b < e`, `get(q) = v` for every key `q` with
`b ≤ q < e`. -/
theorem claim_C2_range_assignment {kmin : Int} {v0 : V} {m : Table V}
    (hr : Reachable kmin v0 m) {b e : Int} (hb : kmin ≤ b) (hbe : b < e)
    (v : V) {q : Int} (h1 : b ≤ q) (h2 : q < e) :
    ∃ m2, insert? m b e v = some m2 ∧ get? m2 q = some v := by
  have hwf := reachable_wf hr
  obtain ⟨m2, hins, hwf2, hfl⟩ := insert_effect hwf hb (le_of_lt hbe) v
  refine ⟨m2, hins, ?_⟩
  rw [get?_eq_specFloor hwf2 (by omega), hfl q (by omega), if_pos ⟨h1, h2⟩]

/-- C3.  Floor-search lookup: on every finite strictly key-sorted table whose
first breakpoint is the sentinel minimum key, `get(q)` returns the value
stored at the greatest breakpoint key `k ≤ q`; in particular, when `q`
exceeds all breakpoint keys, `get(q)` returns the value of the greatest
breakpoint. -/
theorem claim_C3_floor_lookup {m : Table V} {kmin : Int} (hs : SortedT m)
    (hh : (keysOf m).head? = some kmin) {q : Int} (hq : kmin ≤ q) :
    get? m q = specFloor m q ∧
      ((∀ p ∈ m, p.1 < q) → get? m q = (m.getLast?).map Prod.snd) := by
  have hwf : WF kmin m := ⟨hs, hh⟩
  refine ⟨get?_eq_specFloor hwf hq, ?_⟩
  intro hall
  obtain ⟨p, hp, hpf⟩ := floorE_exists_wf hwf hq
  rw [get?_eq_of_isFloorE hwf hq hpf]
  have hne : m ≠ [] := by
    obtain ⟨w, t, hm0⟩ := wf_shape hwf
    rw [hm0]
    simp
  obtain ⟨pL, hpL⟩ := Option.isSome_iff_exists.mp (List.getLast?_isSome.mpr hne)
  have h1 := key_le_getLast hs hpf.1 hpL
  have h2 := hpf.2.2 pL (mem_of_getLast? hpL) (le_of_lt (hall pL (mem_of_getLast? hpL)))
  have h3 : p = pL := entry_eq_of_key_eq hs hpf.1 (mem_of_getLast? hpL) (by omega)
  rw [hpL, Option.map_some', h3]

/-- C4.  Frame/boundary exclusivity: on every reachable map, for `b ≤ e`,
`insert(b, e, v)` leaves `get(q)` unchanged for every key `q < b` and every
key `q ≥ e`; in particular `get(e)` is unchanged. -/
theorem claim_C4_frame {kmin : Int} {v0 : V} {m : Table V}
    (hr : Reachable kmin v0 m) {b e : Int} (hb : kmin ≤ b) (hbe : b ≤ e)
    (v : V) :
    ∃ m2, insert? m b e v = some m2 ∧
      ∀ q, kmin ≤ q → (q < b ∨ e ≤ q) → get? m2 q = get? m q := by
  have hwf := reachable_wf hr
  obtain ⟨m2, hins, hwf2, hfl⟩ := insert_effect hwf hb hbe v
  refine ⟨m2, hins, ?_⟩
  intro q hq hside
  rw [get?_eq_specFloor hwf2 hq, get?_eq_specFloor hwf hq, hfl q hq,
    if_neg (by omega)]

/-- C6.  No-op on empty range: on every reachable map, `insert(b, b, v)`
leaves `get(q)` identical to its value before the call, for every key. -/
theorem claim_C6_empty_range {kmin : Int} {v0 : V} {m : Table V}
    (hr : Reachable kmin v0 m) {b : Int} (hb : kmin ≤ b) (v : V) :
    ∃ m2, insert? m b b v = some m2 ∧ ∀ q, kmin ≤ q → get? m2 q = get? m q := by
  have hwf := reachable_wf hr
  obtain ⟨m2, hins, hwf2, hfl⟩ := insert_effect hwf hb (le_refl b) v
  refine ⟨m2, hins, ?_⟩
  intro q hq
  rw [get?_eq_specFloor hwf2 hq, get?_eq_specFloor hwf hq, hfl q hq,
    if_neg (by omega)]

/-- C9.  Sentinel invariant: every reachable map contains a breakpoint at the
minimum sentinel key; hence the table is never empty. -/
theorem claim_C9_sentinel {kmin : Int} {v0 : V} {m : Table V}
    (hr : Reachable kmin v0 m) :
    (∃ p ∈ m, p.1 = kmin) ∧ m ≠ [] := by
  have hwf := reachable_wf hr
  obtain ⟨w, t, hm0⟩ := wf_shape hwf
  refine ⟨⟨(kmin, w), ?_, rfl⟩, ?_⟩
  · rw [hm0]
    exact List.mem_cons_self _ _
  · rw [hm0]
    simp

/-- C10.  Totality of `get`: on every reachable map and every domain key,
`get` returns a value; no failure branch (out-of-bounds index or failing
`unwrap`) is reachable. -/
theorem claim_C10_get_total {kmin : Int} {v0 : V} {m : Table V}
    (hr : Reachable kmin v0 m) {q : Int} (hq : kmin ≤ q) :
    ∃ v, get? m q = some v :=
  get?_total (reachable_wf hr) hq

/-- C8.  Idempotence of insert: on every reachable map and for every
`b`, `e`, `v` (keys in the domain), calling `insert(b, e, v)` twice in
succession yields the same observable mapping as calling it once. -/
theorem claim_C8_idempotent {kmin : Int} {v0 : V} {m : Table V}
    (hr : Reachable kmin v0 m) {b e : Int} (hb : kmin ≤ b) (he : kmin ≤ e)
    (v : V) :
    ∃ m1 m2, insert? m b e v = some m1 ∧ insert? m1 b e v = some m2 ∧
      ∀ q, kmin ≤ q → get? m2 q = get? m1 q := by
  have hwf := reachable_wf hr
  by_cases hbe : b ≤ e
  · obtain ⟨m1, hins1, hwf1, hfl1⟩ := insert_effect hwf hb hbe v
    obtain ⟨m2, hins2, hwf2, hfl2⟩ := insert_effect hwf1 hb hbe v
    refine ⟨m1, m2, hins1, hins2, ?_⟩
    intro q hq
    rw [get?_eq_specFloor hwf2 hq, get?_eq_specFloor hwf1 hq, hfl2 q hq]
    by_cases hcov : b ≤ q ∧ q < e
    · rw [if_pos hcov, hfl1 q hq, if_pos hcov]
    · rw [if_neg hcov]
  · obtain ⟨bv0, hget, hbv, hins1⟩ := insert_gt_shape (e := e) hwf hb (by omega) v
    by_cases h1 : bv0 = v
    · rw [if_pos h1] at hins1
      exact ⟨m, m, hins1, hins1, fun q hq => rfl⟩
    · rw [if_neg h1] at hins1
      have hs1 : SortedT (btreeInsert (btreeInsert m b v) e bv0) :=
        btreeInsert_sorted (btreeInsert_sorted hwf.1 b v) e bv0
      obtain ⟨w0, t0, hm0⟩ := wf_shape hwf
      have hsent : ((kmin, w0) : Int × V) ∈ m := by
        rw [hm0]
        exact List.mem_cons_self _ _
      have hmem : ∃ w, ((kmin, w) : Int × V) ∈ btreeInsert (btreeInsert m b v) e bv0 := by
        by_cases hek : e = kmin
        · refine ⟨bv0, (btreeInsert_mem (btreeInsert_sorted hwf.1 b v)).mpr (Or.inl ?_)⟩
          rw [hek]
        · by_cases hbk : b = kmin
          · refine ⟨v, (btreeInsert_mem (btreeInsert_sorted hwf.1 b v)).mpr
              (Or.inr ⟨?_, by omega⟩)⟩
            refine (btreeInsert_mem hwf.1).mpr (Or.inl ?_)
            rw [hbk]
          · refine ⟨w0, (btreeInsert_mem (btreeInsert_sorted hwf.1 b v)).mpr
              (Or.inr ⟨?_, by omega⟩)⟩
            exact (btreeInsert_mem hwf.1).mpr (Or.inr ⟨hsent, by omega⟩)
      have hlb1 : ∀ p ∈ btreeInsert (btreeInsert m b v) e bv0, kmin ≤ p.1 := by
        intro p hp
        rcases (btreeInsert_mem (btreeInsert_sorted hwf.1 b v)).mp hp with rfl | ⟨hp2, _⟩
        · omega
        · rcases (btreeInsert_mem hwf.1).mp hp2 with rfl | ⟨hp3, _⟩
          · omega
          · exact wf_key_lb hwf p hp3
      obtain ⟨w, hw⟩ := hmem
      have hwf1 : WF kmin (btreeInsert (btreeInsert m b v) e bv0) :=
        ⟨hs1, head_of_min_mem hs1 hw hlb1⟩
      have hflb : IsFloorE (btreeInsert (btreeInsert m b v) e bv0) b (b, v) := by
        refine ⟨?_, le_refl b, ?_⟩
        · refine (btreeInsert_mem (btreeInsert_sorted hwf.1 b v)).mpr
            (Or.inr ⟨?_, by omega⟩)
          exact (btreeInsert_mem hwf.1).mpr (Or.inl rfl)
        · intro r hr hrb
          omega
      have hget1 : get? (btreeInsert (btreeInsert m b v) e bv0) b = some v :=
        get?_eq_of_isFloorE hwf1 hb hflb
      obtain ⟨bv1, hget2, hbv2, hins2⟩ := insert_gt_shape (e := e) hwf1 hb (by omega) v
      have hbv1v : bv1 = v := by
        rw [hget1] at hget2
        exact (Option.some_inj.mp hget2).symm
      rw [hbv1v, if_pos rfl] at hins2
      exact ⟨_, _, hins1, hins2, fun q hq => rfl⟩

/-! ### Adjacent entries of sorted tables -/

/-- A chain relation on a sorted table follows from a property of all pairs
of members with no member strictly between them. -/
theorem chain'_of_between {R : Int × V → Int × V → Prop} :
    ∀ {m : Table V}, SortedT m →
      (∀ p ∈ m, ∀ r ∈ m, p.1 < r.1 →
        (∀ s ∈ m, s.1 ≤ p.1 ∨ r.1 ≤ s.1) → R p r) →
      List.Chain' R m := by
  intro m
  induction m with
  | nil =>
    intro _ _
    exact List.chain'_nil
  | cons x t ih =>
    intro hs H
    obtain ⟨hx, ht⟩ := sortedT_cons hs
    cases t with
    | nil => exact List.chain'_singleton x
    | cons y t2 =>
      obtain ⟨hy, ht2⟩ := sortedT_cons ht
      refine List.chain'_cons.mpr ⟨?_, ?_⟩
      · refine H x (List.mem_cons_self _ _) y
          (List.mem_cons_of_mem _ (List.mem_cons_self _ _))
          (hx y (List.mem_cons_self _ _)) ?_
        intro s hs2
        rcases List.mem_cons.mp hs2 with rfl | hs3
        · exact Or.inl (le_refl _)
        · rcases List.mem_cons.mp hs3 with rfl | hs4
          · exact Or.inr (le_refl _)
          · exact Or.inr (le_of_lt (hy s hs4))
      · refine ih ht ?_
        intro p hp r hr hpr hbet
        refine H p (List.mem_cons_of_mem _ hp) r (List.mem_cons_of_mem _ hr) hpr ?_
        intro s hs2
        rcases List.mem_cons.mp hs2 with rfl | hs3
        · exact Or.inl (le_of_lt (hx p hp))
        · exact hbet s hs3

/-- Conversely, a chain relation on a sorted table holds for any two members
with no member strictly between them. -/
theorem chain'_extract {R : Int × V → Int × V → Prop} :
    ∀ {m : Table V}, SortedT m → List.Chain' R m →
      ∀ p ∈ m, ∀ r ∈ m, p.1 < r.1 →
      (∀ s ∈ m, s.1 ≤ p.1 ∨ r.1 ≤ s.1) → R p r := by
  intro m
  induction m with
  | nil =>
    intro _ _ p hp
    cases hp
  | cons x t ih =>
    intro hs hch p hp r hr hpr hbet
    obtain ⟨hx, ht⟩ := sortedT_cons hs
    rcases List.mem_cons.mp hp with rfl | hp2
    · rcases List.mem_cons.mp hr with rfl | hr2
      · exact absurd hpr (lt_irrefl _)
      · cases t with
        | nil => cases hr2
        | cons y t2 =>
          rcases List.mem_cons.mp hr2 with rfl | hr3
          · exact (List.chain'_cons.mp hch).1
          · exfalso
            obtain ⟨hy, _⟩ := sortedT_cons ht
            have h1 := hx y (List.mem_cons_self _ _)
            have h2 := hy r hr3
            rcases hbet y (List.mem_cons_of_mem _ (List.mem_cons_self _ _)) with h3 | h3 <;>
              omega
    · rcases List.mem_cons.mp hr with rfl | hr2
      · exfalso
        have := hx p hp2
        omega
      · refine ih ht hch.tail p hp2 r hr2 hpr ?_
        intro s hs2
        exact hbet s (List.mem_cons_of_mem _ hs2)

/-- On a canonical table, any adjacent equal-valued pair that the splice
leaves behind has its later breakpoint exactly at `begin_key`. -/
theorem spliceOf_dup_at_begin {kmin b e : Int} {m : Table V} (hm : WF kmin m)
    (hc : Canonical m) (hb : kmin ≤ b) (hbe : b ≤ e) {v bv0 cv : V}
    (hbv : specFloor m b = some bv0) (hcve : specFloor m e = some cv) :
    List.Chain' (fun p r : Int × V => p.2 = r.2 → r.1 = b)
      (spliceOf m b e v bv0 cv) := by
  have hsorted := spliceOf_sorted (b := b) (e := e) hm.1 v bv0 cv
  rw [specFloor] at hbv hcve
  obtain ⟨pb, hpb, hpbv⟩ := Option.map_eq_some'.mp hbv
  have hpbf := isFloorE_of_floorE hm.1 hpb
  have hpb1 : pb.1 ≤ b := hpbf.2.1
  obtain ⟨pe, hpe, hpev⟩ := Option.map_eq_some'.mp hcve
  have hpef := isFloorE_of_floorE hm.1 hpe
  have hpe1 : pe.1 ≤ e := hpef.2.1
  -- survival of old entries
  have hmem3 : ∀ s ∈ m, ¬ (b < s.1 ∧ s.1 ≤ e) → (bv0 = v ∨ s.1 ≠ b) →
      (cv = v ∨ s.1 ≠ e) → s ∈ spliceOf m b e v bv0 cv :=
    fun s h1 h2 h3 h4 => (spliceOf_mem hm.1).mpr (Or.inr (Or.inr ⟨h1, h2, h3, h4⟩))
  -- adjacency in the old table gives distinct values
  have hadjm : ∀ p2 ∈ m, ∀ r2 ∈ m, p2.1 < r2.1 →
      (∀ s ∈ m, s.1 ≤ p2.1 ∨ r2.1 ≤ s.1) → p2.2 ≠ r2.2 :=
    fun p2 hp2 r2 hr2 hlt hcnd => chain'_extract hm.1 hc p2 hp2 r2 hr2 hlt hcnd
  -- the carry entry is adjacent (in the old table) to any old entry beyond e
  -- with nothing of the old table strictly between
  have hpe_r : ∀ r ∈ m, e < r.1 → (∀ s ∈ m, ¬ (e < s.1 ∧ s.1 < r.1)) → cv ≠ r.2 := by
    intro r hr hr1 hnone
    have hcnd : ∀ s ∈ m, s.1 ≤ pe.1 ∨ r.1 ≤ s.1 := by
      intro s hs
      by_cases h1 : s.1 ≤ e
      · exact Or.inl (hpef.2.2 s hs h1)
      · by_cases h2 : s.1 < r.1
        · exact absurd ⟨by omega, h2⟩ (hnone s hs)
        · exact Or.inr (by omega)
    have hne := hadjm pe hpef.1 r hr (by omega) hcnd
    intro hcc
    exact hne (by rw [hpev, hcc])
  -- an old entry at or below b with no old entry strictly between it and b
  -- is the floor entry at b
  have hp_b : ∀ p ∈ m, p.1 ≤ b → (∀ s ∈ m, ¬ (p.1 < s.1 ∧ s.1 ≤ b)) → p.2 = bv0 := by
    intro p hp hple hnone
    have hisf : IsFloorE m b p := by
      refine ⟨hp, hple, ?_⟩
      intro s hs hsb
      by_cases h5 : s.1 ≤ p.1
      · exact h5
      · exact absurd ⟨by omega, hsb⟩ (hnone s hs)
    have h6 := floorE_of_isFloorE hm.1 hisf
    rw [hpb, Option.some_inj] at h6
    rw [← h6, hpbv]
  refine chain'_of_between hsorted ?_
  intro p hp r hr hpr hbet heq
  by_cases hrb : r.1 = b
  · exact hrb
  exfalso
  rcases (spliceOf_mem hm.1).mp hr with ⟨hcv2, rfl⟩ | ⟨hbv2, rfl, hre2⟩ | ⟨hrm, hrn, hr3, hr4⟩
  · -- r = (e, cv); since r.1 ≠ b we have b < e
    have hblt : b < e := by omega
    rcases (spliceOf_mem hm.1).mp hp with ⟨hcv3, rfl⟩ | ⟨hbv3, rfl, hpe3⟩ | ⟨hpm, hpn, hp3, hp4⟩
    · omega
    · exact hcv2 heq.symm
    · have hpb2 : p.1 ≤ b := by omega
      by_cases h1 : bv0 = v
      · have hnone : ∀ s ∈ m, ¬ (p.1 < s.1 ∧ s.1 ≤ b) := by
          intro s hs hc2
          have hsM : s ∈ spliceOf m b e v bv0 cv :=
            hmem3 s hs (by omega) (Or.inl h1) (Or.inr (by omega))
          rcases hbet s hsM with h5 | h5 <;> omega
        have h7 := hp_b p hpm hpb2 hnone
        have h8 : cv = p.2 := heq.symm
        exact hcv2 (by rw [h8, h7, h1])
      · have hbM : ((b, v) : Int × V) ∈ spliceOf m b e v bv0 cv :=
          (spliceOf_mem hm.1).mpr (Or.inr (Or.inl ⟨h1, rfl, Or.inr (by omega)⟩))
        have hpneb : p.1 ≠ b := by
          rcases hp3 with h5 | h5
          · exact absurd h5 h1
          · exact h5
        rcases hbet (b, v) hbM with h5 | h5 <;> omega
  · exact hrb rfl
  · have hrcase : r.1 < b ∨ e < r.1 := by omega
    rcases hrcase with hrlt | hrgt
    · -- r strictly below b; p must be an old entry below r
      rcases (spliceOf_mem hm.1).mp hp with ⟨hcv3, rfl⟩ | ⟨hbv3, rfl, hpe3⟩ | ⟨hpm, hpn, hp3, hp4⟩
      · omega
      · omega
      · have hcnd : ∀ s ∈ m, s.1 ≤ p.1 ∨ r.1 ≤ s.1 := by
          intro s hs
          by_cases h5 : s.1 ≤ p.1
          · exact Or.inl h5
          · by_cases h6 : r.1 ≤ s.1
            · exact Or.inr h6
            · exfalso
              have hsM : s ∈ spliceOf m b e v bv0 cv :=
                hmem3 s hs (by omega) (Or.inr (by omega)) (Or.inr (by omega))
              rcases hbet s hsM with h7 | h7 <;> omega
        exact hadjm p hpm r hrm hpr hcnd heq
    · -- r strictly beyond e
      rcases (spliceOf_mem hm.1).mp hp with ⟨hcv3, rfl⟩ | ⟨hbv3, rfl, hpe3⟩ | ⟨hpm, hpn, hp3, hp4⟩
      · -- p = (e, cv)
        have hnomid : ∀ s ∈ m, ¬ (e < s.1 ∧ s.1 < r.1) := by
          intro s hs hc2
          have hsM : s ∈ spliceOf m b e v bv0 cv :=
            hmem3 s hs (by omega) (Or.inr (by omega)) (Or.inr (by omega))
          rcases hbet s hsM with h7 | h7 <;> omega
        exact hpe_r r hrm hrgt hnomid heq
      · -- p = (b, v)
        by_cases h2 : cv = v
        · have hnomid : ∀ s ∈ m, ¬ (e < s.1 ∧ s.1 < r.1) := by
            intro s hs hc2
            have hsM : s ∈ spliceOf m b e v bv0 cv :=
              hmem3 s hs (by omega) (Or.inr (by omega)) (Or.inr (by omega))
            rcases hbet s hsM with h7 | h7 <;> omega
          exact hpe_r r hrm hrgt hnomid (by rw [h2, ← heq])
        · have hbne : b ≠ e := by
            rcases hpe3 with h5 | h5
            · exact absurd h5 h2
            · exact h5
          have heM : ((e, cv) : Int × V) ∈ spliceOf m b e v bv0 cv :=
            (spliceOf_mem hm.1).mpr (Or.inl ⟨h2, rfl⟩)
          rcases hbet (e, cv) heM with h7 | h7 <;> omega
      · -- p an old entry
        have hpcase : p.1 ≤ b ∨ e < p.1 := by omega
        rcases hpcase with hple | hpgt
        · by_cases h1 : bv0 = v
          · by_cases h2 : cv = v
            · have hnomid : ∀ s ∈ m, ¬ (e < s.1 ∧ s.1 < r.1) := by
                intro s hs hc2
                have hsM : s ∈ spliceOf m b e v bv0 cv :=
                  hmem3 s hs (by omega) (Or.inr (by omega)) (Or.inr (by omega))
                rcases hbet s hsM with h7 | h7 <;> omega
              have hcvr := hpe_r r hrm hrgt hnomid
              have hnone : ∀ s ∈ m, ¬ (p.1 < s.1 ∧ s.1 ≤ b) := by
                intro s hs hc2
                have hsM : s ∈ spliceOf m b e v bv0 cv :=
                  hmem3 s hs (by omega) (Or.inl h1)
                    (by
                      by_cases h8 : s.1 = e
                      · exact Or.inl h2
                      · exact Or.inr h8)
                rcases hbet s hsM with h7 | h7 <;> omega
              have h7 := hp_b p hpm hple hnone
              exact hcvr (by rw [← heq, h7, h1, h2])
            · have hpnee : p.1 ≠ e := by
                rcases hp4 with h5 | h5
                · exact absurd h5 h2
                · exact h5
              have heM : ((e, cv) : Int × V) ∈ spliceOf m b e v bv0 cv :=
                (spliceOf_mem hm.1).mpr (Or.inl ⟨h2, rfl⟩)
              rcases hbet (e, cv) heM with h7 | h7 <;> omega
          · have hpneb : p.1 ≠ b := by
              rcases hp3 with h5 | h5
              · exact absurd h5 h1
              · exact h5
            by_cases h2 : cv = v
            · have hbM : ((b, v) : Int × V) ∈ spliceOf m b e v bv0 cv :=
                (spliceOf_mem hm.1).mpr (Or.inr (Or.inl ⟨h1, rfl, Or.inl h2⟩))
              rcases hbet (b, v) hbM with h7 | h7 <;> omega
            · have heM : ((e, cv) : Int × V) ∈ spliceOf m b e v bv0 cv :=
                (spliceOf_mem hm.1).mpr (Or.inl ⟨h2, rfl⟩)
              rcases hbet (e, cv) heM with h7 | h7 <;> omega
        · -- both p and r beyond e
          have hcnd : ∀ s ∈ m, s.1 ≤ p.1 ∨ r.1 ≤ s.1 := by
            intro s hs
            by_cases h5 : s.1 ≤ p.1
            · exact Or.inl h5
            · by_cases h6 : r.1 ≤ s.1
              · exact Or.inr h6
              · exfalso
                have hsM : s ∈ spliceOf m b e v bv0 cv :=
                  hmem3 s hs (by omega) (Or.inr (by omega)) (Or.inr (by omega))
                rcases hbet s hsM with h7 | h7 <;> omega
          exact hadjm p hpm r hrm hpr hcnd heq

/-- C5 counterexample: the canonical reachable table built by `new('a')` then
`insert(5, 10, 'b')` has no two adjacent breakpoints with equal values, yet
`insert(5, 8, 'a')` (which overwrites the breakpoint sitting exactly at key
`5`) produces a table with a newly created adjacent equal-valued pair: keys
`-2147483648` and `5` both now hold `'a'`. -/
theorem claim_C5_counterexample :
    run (-2147483648) 'a' [((5 : Int), (10 : Int), 'b')] =
      some [((-2147483648 : Int), 'a'), ((5 : Int), 'b'), ((10 : Int), 'a')] ∧
    Canonical [((-2147483648 : Int), 'a'), ((5 : Int), 'b'), ((10 : Int), 'a')] ∧
    insert? [((-2147483648 : Int), 'a'), ((5 : Int), 'b'), ((10 : Int), 'a')] 5 8 'a' =
      some [((-2147483648 : Int), 'a'), ((5 : Int), 'a'), ((8 : Int), 'b'), ((10 : Int), 'a')] ∧
    ¬ Canonical
      [((-2147483648 : Int), 'a'), ((5 : Int), 'a'), ((8 : Int), 'b'), ((10 : Int), 'a')] := by
  refine ⟨by decide, ?_, by decide, ?_⟩
  · simp [Canonical, List.chain'_cons]
  · simp [Canonical, List.chain'_cons]

/-- C5 amended.  For every sorted map whose breakpoint table has no two
adjacent breakpoints with equal values and every `b ≤ e`, any pair of
adjacent breakpoints holding equal values in the table after
`insert(b, e, v)` has its later breakpoint exactly at key `b`: away from
`b`, the insertion algorithm introduces no adjacent equal-value
duplicates. -/
theorem claim_C5_amended {kmin : Int} {m : Table V} (hm : WF kmin m)
    (hc : Canonical m) {b e : Int} (hb : kmin ≤ b) (hbe : b ≤ e) (v : V) :
    ∃ m2, insert? m b e v = some m2 ∧
      List.Chain' (fun p r : Int × V => p.2 = r.2 → r.1 = b) m2 := by
  obtain ⟨bv0, cv, hget, hbv, hcv, hins⟩ := insert_shape (e := e) hm hb v
  have hcve : specFloor m e = some cv := by
    rw [hcv]
    exact loopVal_eq_floorE hm hb hbe hbv
  exact ⟨_, hins, spliceOf_dup_at_begin hm hc hb hbe hbv hcve⟩

theorem claim_C5_amended_witness :
    ∃ m2, insert? (new (-2147483648) 'a') 5 10 'b' = some m2 ∧
      List.Chain' (fun p r : Int × Char => p.2 = r.2 → r.1 = 5) m2 := by
  have hm : WF (-2147483648) (new (-2147483648) 'a') :=
    ⟨List.pairwise_singleton _ _, rfl⟩
  exact claim_C5_amended hm (List.chain'_singleton _) (by decide) (by decide) 'b'

/-- C7 counterexample: on the reachable table `new('a')`, the reversed-range
call `insert(5, 3, 'b')` is not a no-op: it writes the breakpoints
`(3, 'a')` and `(5, 'b')`, and the value read at key `6` changes from `'a'`
to `'b'`. -/
theorem claim_C7_counterexample :
    run (-2147483648) 'a' ([] : List (Int × Int × Char)) =
      some (new (-2147483648) 'a') ∧
    insert? (new (-2147483648) 'a') 5 3 'b' =
      some [((-2147483648 : Int), 'a'), ((3 : Int), 'a'), ((5 : Int), 'b')] ∧
    get? (new (-2147483648) 'a') 6 = some 'a' ∧
    get? [((-2147483648 : Int), 'a'), ((3 : Int), 'a'), ((5 : Int), 'b')] 6 = some 'b' :=
  ⟨rfl, by decide, by decide, by decide⟩

/-- C7 amended.  On a reachable map, `insert(b, e, v)` with `b > e` deletes
no breakpoint; it leaves the table unchanged exactly when `v` is already the
value covering `b`, and otherwise it writes the two breakpoints `(b, v)` and
`(e, old value at b)` — so it is not a no-op in general and `get` can
change. -/
theorem claim_C7_amended {kmin : Int} {v0 : V} {m : Table V}
    (hr : Reachable kmin v0 m) {b e : Int} (he : kmin ≤ e) (hlt : e < b)
    (v : V) :
    ∃ bv0, get? m b = some bv0 ∧
      insert? m b e v =
        some (if bv0 = v then m else btreeInsert (btreeInsert m b v) e bv0) := by
  have hwf := reachable_wf hr
  obtain ⟨bv0, hget, hbv, hins⟩ := insert_gt_shape (e := e) hwf (by omega) hlt v
  exact ⟨bv0, hget, hins⟩

theorem claim_C7_amended_witness :
    ∃ bv0, get? (new (-2147483648) 'a') 5 = some bv0 ∧
      insert? (new (-2147483648) 'a') 5 3 'b' =
        some (if bv0 = 'b' then new (-2147483648) 'a'
              else btreeInsert (btreeInsert (new (-2147483648) 'a') 5 'b') 3 bv0) := by
  have hr : Reachable (-2147483648) 'a' (new (-2147483648) 'a') :=
    ⟨[], fun op h => absurd h (List.not_mem_nil op), rfl⟩
  exact claim_C7_amended hr (by decide) (by decide) 'b'

/-! ### Witnesses: the claim theorems applied at concrete inputs -/

theorem claim_C1_witness :
    ∃ m, run (-2147483648) 'a'
        [((10 : Int), (20 : Int), 'b'), ((15 : Int), (25 : Int), 'c')] = some m ∧
      get? m 15 =
        some (lastWrite 'a'
          [((10 : Int), (20 : Int), 'b'), ((15 : Int), (25 : Int), 'c')] 15) := by
  have hops : ∀ op ∈ [((10 : Int), (20 : Int), 'b'), ((15 : Int), (25 : Int), 'c')],
      (-2147483648 : Int) ≤ op.1 ∧ op.1 ≤ op.2.1 := by decide
  exact claim_C1_last_write_wins hops (by decide)

theorem claim_C2_witness :
    ∃ m2, insert? (new (-2147483648) 'a') 10 20 'b' = some m2 ∧
      get? m2 15 = some 'b' := by
  have hr : Reachable (-2147483648) 'a' (new (-2147483648) 'a') :=
    ⟨[], fun op h => absurd h (List.not_mem_nil op), rfl⟩
  exact claim_C2_range_assignment hr (by decide) (by decide) 'b' (by decide) (by decide)

theorem claim_C3_witness :
    get? [((-2147483648 : Int), 'a'), ((10 : Int), 'b')] 15 =
        specFloor [((-2147483648 : Int), 'a'), ((10 : Int), 'b')] 15 ∧
      ((∀ p ∈ [((-2147483648 : Int), 'a'), ((10 : Int), 'b')], p.1 < 15) →
        get? [((-2147483648 : Int), 'a'), ((10 : Int), 'b')] 15 =
          ([((-2147483648 : Int), 'a'), ((10 : Int), 'b')].getLast?).map Prod.snd) := by
  have hh : (keysOf [((-2147483648 : Int), 'a'), ((10 : Int), 'b')]).head? =
      some (-2147483648) := rfl
  exact claim_C3_floor_lookup (by rw [SortedT]; decide) hh (by decide)

theorem claim_C4_witness :
    ∃ m2, insert? (new (-2147483648) 'a') 10 20 'b' = some m2 ∧
      ∀ q, (-2147483648 : Int) ≤ q → (q < 10 ∨ 20 ≤ q) →
        get? m2 q = get? (new (-2147483648) 'a') q := by
  have hr : Reachable (-2147483648) 'a' (new (-2147483648) 'a') :=
    ⟨[], fun op h => absurd h (List.not_mem_nil op), rfl⟩
  exact claim_C4_frame hr (by decide) (by decide) 'b'

theorem claim_C6_witness :
    ∃ m2, insert? (new (-2147483648) 'a') 5 5 'b' = some m2 ∧
      ∀ q, (-2147483648 : Int) ≤ q → get? m2 q = get? (new (-2147483648) 'a') q := by
  have hr : Reachable (-2147483648) 'a' (new (-2147483648) 'a') :=
    ⟨[], fun op h => absurd h (List.not_mem_nil op), rfl⟩
  exact claim_C6_empty_range hr (by decide) 'b'

theorem claim_C8_witness :
    ∃ m1 m2, insert? (new (-2147483648) 'a') 10 20 'b' = some m1 ∧
      insert? m1 10 20 'b' = some m2 ∧
      ∀ q, (-2147483648 : Int) ≤ q → get? m2 q = get? m1 q := by
  have hr : Reachable (-2147483648) 'a' (new (-2147483648) 'a') :=
    ⟨[], fun op h => absurd h (List.not_mem_nil op), rfl⟩
  exact claim_C8_idempotent hr (by decide) (by decide) 'b'

theorem claim_C9_witness :
    (∃ p ∈ new (-2147483648) 'a', p.1 = -2147483648) ∧
      new (-2147483648) 'a' ≠ ([] : Table Char) := by
  have hr : Reachable (-2147483648) 'a' (new (-2147483648) 'a') :=
    ⟨[], fun op h => absurd h (List.not_mem_nil op), rfl⟩
  exact claim_C9_sentinel hr

theorem claim_C10_witness :
    ∃ v, get? (new (-2147483648) 'a') 7 = some v := by
  have hr : Reachable (-2147483648) 'a' (new (-2147483648) 'a') :=
    ⟨[], fun op h => absurd h (List.not_mem_nil op), rfl⟩
  exact claim_C10_get_total hr (by decide)

end IntervalMap
